import Mathlib

/-!
Verification of the Alembic migration checker
(`src/action/check_alembic_migration.py`).

The reconciliation core compares the database's recorded Alembic revision
(`db_version`) with the head revision of the migration script graph
(`latest_migration`) and classifies the relationship as up-to-date,
`n` pending migrations, or unreconcilable.

The revision graph and its traversal live in the external Alembic library
(`ScriptDirectory.get_revision("head")`, `ScriptDirectory.iterate_revisions`),
which is not part of this repository; those are modelled from the spec's
Revision Graph Accessor contract (spec section 4.1).  The classification
logic (`find_pending_migrations`, `evaluate_migration_alignment`) and the
constructor validation (`__init__`, `_validate_db_inputs`) are embedded
directly from the Python source.
-/

namespace AlembicChecker

/-- A node of the migration graph: an identifier plus the identifiers of its
predecessor revisions (spec section 3, "Revision").  Alembic stores these as
`revision` / `down_revision`; merge revisions may have several predecessors. -/
structure Revision where
  revision : String
  down_revisions : List String
deriving Repr, DecidableEq

/-- The materialized revision graph supplied by the external graph source. -/
abbrev Graph := List Revision

/-- Look a revision up by identifier. -/
def findRev (g : Graph) (id : String) : Option Revision :=
  g.find? (fun r => r.revision == id)

/-- Modelled from the spec: the defensive bounded backward walk underlying
`traverseBetween` (spec section 4.1).  Starting at `cur`, follow predecessor
edges back toward `target`, returning the ordered sequence of identifiers
encountered (exclusive of `target`, inclusive of `cur`, listed from the step
closest to `target` through `cur` itself).  The fuel bound makes the walk
visit no unbounded chain of edges, so it terminates even on cyclic input. -/
def walkBack (g : Graph) (target : String) : Nat → String → Option (List String)
  | 0, _ => none
  | fuel + 1, cur =>
    if cur == target then
      some []
    else
      match findRev g cur with
      | none => none
      | some r =>
        (r.down_revisions.findSome? (fun p => walkBack g target fuel p)).map
          (fun path => path ++ [cur])

/-- The two traversal failures of the Alembic accessor that
`find_pending_migrations` catches: `ResolutionError` (an endpoint does not
resolve to a revision of the graph) and `RangeNotAncestorError` (no chain of
predecessor edges connects `to` back to `from`). -/
inductive TraversalError where
  | resolutionError
  | rangeNotAncestorError
deriving Repr, DecidableEq

/-- Modelled from the spec: `traverseBetween(from, to)` of the Revision Graph
Accessor (spec section 4.1), standing in for the external
`ScriptDirectory.iterate_revisions(to, from)`.  Produces the ordered sequence
of revisions walking from `to` back toward `fromId`, or fails with
`Unreachable` (as `ResolutionError` when `fromId` is not in the graph,
`RangeNotAncestorError` when no predecessor path connects `toId` to it). -/
def traverseBetween (g : Graph) (fromId toId : String) :
    Except TraversalError (List String) :=
  if (findRev g fromId).isSome then
    match walkBack g fromId (g.length + 1) toId with
    | some path => Except.ok path
    | none => Except.error TraversalError.rangeNotAncestorError
  else
    Except.error TraversalError.resolutionError

/-- Embeds `AlembicMigrationChecker.find_pending_migrations` (source lines
191-221): iterate the revisions from `latest_migration` down to `db_version`;
on success return `(True, count)`, and on `RangeNotAncestorError` or
`ResolutionError` catch the exception and return `(False, 0)`. -/
def find_pending_migrations (g : Graph) (latest_migration db_version : String) :
    Bool × Nat :=
  match traverseBetween g db_version latest_migration with
  | Except.ok path => (true, path.length)
  | Except.error _ => (false, 0)

/-- Is `id` referenced as a predecessor by some revision of the graph? -/
def isReferenced (g : Graph) (id : String) : Bool :=
  g.any (fun r => r.down_revisions.contains id)

/-- Identifiers of the revisions of the graph with no successor. -/
def terminals (g : Graph) : List String :=
  (g.filter (fun r => !isReferenced g r.revision)).map (fun r => r.revision)

/-- Modelled from the spec: `resolveHead` of the Revision Graph Accessor
(spec sections 3 and 4.1), standing in for the external
`ScriptDirectory.get_revision("head")` used by
`get_latest_migration_version`.  Resolves to the single revision with no
successors; fails when the graph is empty or the terminal revision is not
unique. -/
def resolveHead (g : Graph) : Option String :=
  match terminals g with
  | [h] => some h
  | _ => none

/-- The classification outcomes of `evaluate_migration_alignment`, read off
from its exit points (source lines 223-286): the two fatal preconditions,
the two success classifications and the unreconcilable failure. -/
inductive Outcome where
  | fatalNoHead
  | fatalNoDbVersion
  | upToDate
  | pendingCount (n : Nat)
  | unreconcilable
deriving Repr, DecidableEq

/-- The process exit code produced for each outcome by the `sys.exit` calls
of `evaluate_migration_alignment`. -/
def exitCode : Outcome → Nat
  | Outcome.upToDate => 0
  | Outcome.pendingCount _ => 0
  | _ => 1

/-- Embeds `AlembicMigrationChecker.evaluate_migration_alignment` (source
lines 223-286), generalized over the pending-migration finder so that
independence from the traversal can be stated: resolve head (exit 1 when it
fails), require a database version (exit 1 when absent), report up-to-date on
identifier equality, otherwise consult the finder and report the pending
count or the unreconcilable mismatch. -/
def evaluateWith (findPending : Graph → String → String → Bool × Nat)
    (g : Graph) (dbVersion : Option String) : Outcome :=
  match resolveHead g with
  | none => Outcome.fatalNoHead
  | some latest =>
    match dbVersion with
    | none => Outcome.fatalNoDbVersion
    | some dbv =>
      if latest == dbv then
        Outcome.upToDate
      else
        match findPending g latest dbv with
        | (true, n) => Outcome.pendingCount n
        | (false, _) => Outcome.unreconcilable

/-- `evaluate_migration_alignment` proper: the generic engine instantiated
with the real `find_pending_migrations`. -/
def evaluate_migration_alignment (g : Graph) (dbVersion : Option String) :
    Outcome :=
  evaluateWith find_pending_migrations g dbVersion

/-- Build a linear chain of revisions: each identifier of `ids` points back
to the one before it, the first one back to `prev` (none for the root). -/
def chainRevs : Option String → List String → Graph
  | _, [] => []
  | prev, id :: rest => Revision.mk id prev.toList :: chainRevs (some id) rest

/-- A rooted linear chain `ids[0] -> ids[1] -> ... -> ids[n]`. -/
def mkChain (ids : List String) : Graph := chainRevs none ids

/-- The chain of spec scenarios A-C: base -> A -> B -> C. -/
def chainABC : Graph := mkChain ["base", "A", "B", "C"]

/-- A graph with a two-node cycle plus an isolated root, exercising the
defensive termination bound on contract-violating input. -/
def cyclicGraph3 : Graph :=
  [Revision.mk "a" ["b"], Revision.mk "b" ["a"], Revision.mk "c" []]

/-- The mutable state of an `AlembicMigrationChecker` instance that the
reconciliation consults: the revision graph loaded from the migrations
directory, and the `_script_directory` cache that the `script_directory`
property (source lines 154-159) populates on first access. -/
structure CheckerState where
  migrations_graph : Graph
  cached_script_directory : Option Graph
deriving Repr, DecidableEq

/-- Embeds the `script_directory` cached property (source lines 154-159):
return the cache when populated, otherwise load the graph and store it. -/
def script_directory (s : CheckerState) : Graph × CheckerState :=
  match s.cached_script_directory with
  | some g => (g, s)
  | none =>
    (s.migrations_graph,
      CheckerState.mk s.migrations_graph (some s.migrations_graph))

/-- `find_pending_migrations` as the Python method actually runs: it reads
the graph through the `script_directory` property, so the state threads
through the call. -/
def find_pending_migrations_st (s : CheckerState)
    (latest_migration db_version : String) : (Bool × Nat) × CheckerState :=
  match script_directory s with
  | (g, s1) => (find_pending_migrations g latest_migration db_version, s1)

/-- Python truthiness of an optional string argument: `None` and the empty
string are falsy, every other string is truthy. -/
def truthy : Option String → Bool
  | none => false
  | some s => !s.isEmpty

/-- Embeds `AlembicMigrationChecker._validate_db_inputs` (source lines
83-124).  `pathExists` stands in for the external `os.path.exists`.  Returns
the error message when a check fails and `none` when validation passes. -/
def validate_db_inputs (pathExists : String → Bool)
    (db_type db_host db_port db_user db_password db_name : Option String)
    (migrations_path : String) : Option String :=
  if !truthy db_name then
    some "ERROR: Database name is required."
  else if !(db_type == some "postgresql" || db_type == some "mysql" ||
      db_type == some "sqlite") then
    some "ERROR: Invalid database type."
  else if db_type != some "sqlite" &&
      (!truthy db_host || !truthy db_port || !truthy db_user ||
        !truthy db_password) then
    some "ERROR: Database host, port, user, and password are required for non-SQLite databases."
  else if !pathExists migrations_path then
    some "ERROR: Migrations path does not exist."
  else
    none

/-- Embeds the validation part of `AlembicMigrationChecker.__init__` (source
lines 71-77): when `db_url` is truthy it is taken as-is and no validation
runs; otherwise `_validate_db_inputs` runs and a failure raises
`ValueError` (modelled as `Except.error`). -/
def checker_init (pathExists : String → Bool)
    (db_url db_type db_host db_port db_user db_password db_name : Option String)
    (migrations_path : String) : Except String Unit :=
  if truthy db_url then
    Except.ok ()
  else
    match validate_db_inputs pathExists db_type db_host db_port db_user
        db_password db_name migrations_path with
    | some e => Except.error e
    | none => Except.ok ()

/-! ## Helper lemmas about the bounded traversal -/

/-- The bounded walk returns strictly fewer revisions than its fuel. -/
theorem walkBack_length_lt (g : Graph) (target : String) :
    ∀ (fuel : Nat) (cur : String) (l : List String),
      walkBack g target fuel cur = some l → l.length < fuel := by
  intro fuel
  induction fuel with
  | zero => intro cur l h; simp [walkBack] at h
  | succ f ih =>
    intro cur l h
    rw [walkBack] at h
    by_cases hc : (cur == target) = true
    · rw [if_pos hc] at h
      cases h
      simp
    · rw [if_neg hc] at h
      cases hf : findRev g cur with
      | none => rw [hf] at h; cases h
      | some r =>
        rw [hf] at h
        rw [Option.map_eq_some'] at h
        obtain ⟨sub, hsub, rfl⟩ := h
        obtain ⟨p, hp, hwp⟩ := List.exists_of_findSome?_eq_some hsub
        have hlt := ih p sub hwp
        simp only [List.length_append, List.length_cons, List.length_nil]
        omega

/-- A successful walk that did not start at the target returns at least one
revision (it ends with the starting revision itself). -/
theorem walkBack_ne_nil (g : Graph) (target cur : String) (fuel : Nat)
    (l : List String) (hne : (cur == target) = false)
    (h : walkBack g target (fuel + 1) cur = some l) : l ≠ [] := by
  rw [walkBack, hne] at h
  simp only [Bool.false_eq_true, if_false] at h
  cases hf : findRev g cur with
  | none => rw [hf] at h; cases h
  | some r =>
    rw [hf] at h
    rw [Option.map_eq_some'] at h
    obtain ⟨sub, hsub, rfl⟩ := h
    simp

/-- A successful `traverseBetween` is exactly a successful bounded walk. -/
theorem traverseBetween_ok (g : Graph) (a b : String) (p : List String)
    (h : traverseBetween g a b = Except.ok p) :
    walkBack g a (g.length + 1) b = some p := by
  unfold traverseBetween at h
  by_cases hs : (findRev g a).isSome = true
  · rw [if_pos hs] at h
    cases hw : walkBack g a (g.length + 1) b with
    | some path => rw [hw] at h; cases h; rfl
    | none => rw [hw] at h; cases h
  · rw [if_neg hs] at h; cases h

/-! ## Claims about the engine (C2-C10) -/

/-- C2: whenever `current` equals `head`, the classification is `UpToDate`
for every possible pending-migration finder, so the equality branch of
`evaluate_migration_alignment` never consults the graph traversal. -/
theorem up_to_date_without_traversal
    (f : Graph → String → String → Bool × Nat) (g : Graph) (h : String)
    (hh : resolveHead g = some h) :
    evaluateWith f g (some h) = Outcome.upToDate ∧
      evaluate_migration_alignment g (some h) = Outcome.upToDate := by
  unfold evaluate_migration_alignment evaluateWith
  rw [hh]
  simp

/-- Witness for C2: on the chain base -> A -> B -> C with the database at C,
even a nonsense finder reporting 999 pending migrations is ignored. -/
theorem up_to_date_without_traversal_witness :
    evaluateWith (fun _ _ _ => (true, 999)) chainABC (some "C") =
        Outcome.upToDate ∧
      evaluate_migration_alignment chainABC (some "C") = Outcome.upToDate :=
  up_to_date_without_traversal (fun _ _ _ => (true, 999)) chainABC "C"
    (by rfl)

/-- C3: when the current version is absent from the graph, or the traversal
toward head fails for it in any way, the classification is `Unreconcilable`
with exit code 1 - never a best-effort pending count. -/
theorem unreconcilable_on_unreachable_current (g : Graph) (h dbv : String)
    (hh : resolveHead g = some h) (hne : dbv ≠ h)
    (herr : findRev g dbv = none ∨
      ∃ e, traverseBetween g dbv h = Except.error e) :
    evaluate_migration_alignment g (some dbv) = Outcome.unreconcilable ∧
      exitCode (evaluate_migration_alignment g (some dbv)) = 1 := by
  have herr2 : ∃ e, traverseBetween g dbv h = Except.error e := by
    rcases herr with hnf | he
    · refine ⟨TraversalError.resolutionError, ?_⟩
      unfold traverseBetween
      rw [hnf]
      rfl
    · exact he
  obtain ⟨e, he⟩ := herr2
  have hfp : find_pending_migrations g h dbv = (false, 0) := by
    unfold find_pending_migrations
    rw [he]
  have hbe : (h == dbv) = false :=
    beq_eq_false_iff_ne.mpr (fun hq => hne hq.symm)
  unfold evaluate_migration_alignment evaluateWith
  rw [hh]
  simp [hbe, hfp, exitCode]

/-- Witness for C3 at scenario C: unknown identifier X on the chain
base -> A -> B -> C. -/
theorem unreconcilable_on_unreachable_current_witness :
    evaluate_migration_alignment chainABC (some "X") =
        Outcome.unreconcilable ∧
      exitCode (evaluate_migration_alignment chainABC (some "X")) = 1 :=
  unreconcilable_on_unreachable_current chainABC "C" "X" (by rfl)
    (by decide) (Or.inl (by rfl))

/-- C4: when head resolution fails the engine reports the fatal
precondition and exits 1 for every database version and every finder, so it
short-circuits before fetching the current version or traversing; the
outcome is distinct from `Unreconcilable`. -/
theorem fatal_no_head_short_circuits
    (f : Graph → String → String → Bool × Nat) (g : Graph)
    (dbv : Option String) (hh : resolveHead g = none) :
    evaluateWith f g dbv = Outcome.fatalNoHead ∧
      evaluate_migration_alignment g dbv = Outcome.fatalNoHead ∧
      exitCode (evaluateWith f g dbv) = 1 ∧
      Outcome.fatalNoHead ≠ Outcome.unreconcilable := by
  unfold evaluate_migration_alignment evaluateWith
  rw [hh]
  exact ⟨rfl, rfl, rfl, by simp⟩

/-- Witness for C4: the empty migration graph. -/
theorem fatal_no_head_short_circuits_witness :
    evaluateWith (fun _ _ _ => (true, 999)) ([] : Graph) (some "A") =
        Outcome.fatalNoHead ∧
      evaluate_migration_alignment ([] : Graph) (some "A") =
        Outcome.fatalNoHead ∧
      exitCode (evaluateWith (fun _ _ _ => (true, 999)) ([] : Graph)
        (some "A")) = 1 ∧
      Outcome.fatalNoHead ≠ Outcome.unreconcilable :=
  fatal_no_head_short_circuits (fun _ _ _ => (true, 999)) ([] : Graph)
    (some "A") (by rfl)

/-- C5: every invocation exits with code 0 or 1; code 0 exactly for the
success classifications `UpToDate` and `PendingCount`, code 1 exactly for
`Unreconcilable` and the fatal preconditions. -/
theorem exit_code_mapping (g : Graph) (dbv : Option String) :
    (exitCode (evaluate_migration_alignment g dbv) = 0 ∨
        exitCode (evaluate_migration_alignment g dbv) = 1) ∧
      (exitCode (evaluate_migration_alignment g dbv) = 0 ↔
        (evaluate_migration_alignment g dbv = Outcome.upToDate ∨
          ∃ n, evaluate_migration_alignment g dbv =
            Outcome.pendingCount n)) ∧
      (exitCode (evaluate_migration_alignment g dbv) = 1 ↔
        (evaluate_migration_alignment g dbv = Outcome.unreconcilable ∨
          evaluate_migration_alignment g dbv = Outcome.fatalNoHead ∨
          evaluate_migration_alignment g dbv = Outcome.fatalNoDbVersion)) := by
  cases h : evaluate_migration_alignment g dbv <;> simp [exitCode]

/-- C6: whenever the traversal from current to head succeeds with a
sequence of length k, the classification is `PendingCount k` with exit code
0, and k is at least 1 because current differs from head. -/
theorem pending_count_on_success (g : Graph) (h dbv : String)
    (p : List String) (hh : resolveHead g = some h) (hne : dbv ≠ h)
    (hok : traverseBetween g dbv h = Except.ok p) :
    evaluate_migration_alignment g (some dbv) =
        Outcome.pendingCount p.length ∧
      exitCode (evaluate_migration_alignment g (some dbv)) = 0 ∧
      1 ≤ p.length := by
  have hbe : (h == dbv) = false :=
    beq_eq_false_iff_ne.mpr (fun hq => hne hq.symm)
  have hw := traverseBetween_ok g dbv h p hok
  have hpn : p ≠ [] := walkBack_ne_nil g dbv h g.length p hbe hw
  have hfp : find_pending_migrations g h dbv = (true, p.length) := by
    unfold find_pending_migrations
    rw [hok]
  unfold evaluate_migration_alignment evaluateWith
  rw [hh]
  simp [hbe, hfp, exitCode]
  exact List.length_pos.mpr hpn

/-- Witness for C6: database at A on the chain base -> A -> B -> C, where
the traversal yields the two revisions B and C. -/
theorem pending_count_on_success_witness :
    evaluate_migration_alignment chainABC (some "A") =
        Outcome.pendingCount (["B", "C"] : List String).length ∧
      exitCode (evaluate_migration_alignment chainABC (some "A")) = 0 ∧
      1 ≤ (["B", "C"] : List String).length :=
  pending_count_on_success chainABC "C" "A" ["B", "C"] (by rfl) (by decide)
    (by rfl)

/-- C7: the traversal is a finite computation bounded by the number of
revisions in the graph - a successful path never exceeds the graph size -
and even on cyclic input the bounded walk terminates with a definite
result instead of looping. -/
theorem traversal_bounded_terminates (g : Graph) (a b : String)
    (p : List String) (h : traverseBetween g a b = Except.ok p) :
    p.length ≤ g.length ∧
      traverseBetween cyclicGraph3 "c" "a" =
        Except.error TraversalError.rangeNotAncestorError := by
  refine ⟨?_, by rfl⟩
  have := walkBack_length_lt g a (g.length + 1) b p
    (traverseBetween_ok g a b p h)
  omega

/-- Witness for C7: the successful traversal from A up to C on the chain
base -> A -> B -> C. -/
theorem traversal_bounded_terminates_witness :
    (["B", "C"] : List String).length ≤ chainABC.length ∧
      traverseBetween cyclicGraph3 "c" "a" =
        Except.error TraversalError.rangeNotAncestorError :=
  traversal_bounded_terminates chainABC "A" "C" ["B", "C"] (by rfl)

/-- C8: reconciliation is deterministic and mutation-free: the revision
graph consulted is never changed, a repeated invocation returns the
identical result, and the state is fixed after the first access populates
the script-directory cache. -/
theorem find_pending_idempotent_no_mutation (s : CheckerState)
    (latest dbv : String) :
    ((find_pending_migrations_st s latest dbv).2.migrations_graph =
        s.migrations_graph) ∧
      (find_pending_migrations_st
          ((find_pending_migrations_st s latest dbv).2) latest dbv).1 =
        (find_pending_migrations_st s latest dbv).1 ∧
      (find_pending_migrations_st
          ((find_pending_migrations_st s latest dbv).2) latest dbv).2 =
        (find_pending_migrations_st s latest dbv).2 := by
  cases s with
  | mk g c => cases c <;> simp [find_pending_migrations_st, script_directory]

/-- C9: `find_pending_migrations` catches `RangeNotAncestorError` and
`ResolutionError` rather than propagating them - despite its docstring
claiming it raises both - and returns exactly `(False, 0)`, so the reported
count on the unreconcilable branch is always 0. -/
theorem find_pending_catches_traversal_errors (g : Graph)
    (latest dbv : String) (e : TraversalError)
    (h : traverseBetween g dbv latest = Except.error e) :
    find_pending_migrations g latest dbv = (false, 0) := by
  unfold find_pending_migrations
  rw [h]

/-- Witness for C9 at scenario C: the unknown identifier X against head C
resolves to a `ResolutionError`, caught and turned into `(False, 0)`. -/
theorem find_pending_catches_traversal_errors_witness :
    find_pending_migrations chainABC "C" "X" = (false, 0) :=
  find_pending_catches_traversal_errors chainABC "C" "X"
    TraversalError.resolutionError (by rfl)

/-- C10: the constructor raises `ValueError` exactly when `db_url` is
absent and `_validate_db_inputs` fails; a truthy `db_url` skips validation
entirely, accepting absent connection fields and a missing migrations
path. -/
theorem init_skips_validation_with_db_url (pathExists : String → Bool)
    (db_url db_type db_host db_port db_user db_password db_name :
      Option String) (migrations_path : String) :
    (truthy db_url = true →
      checker_init pathExists db_url db_type db_host db_port db_user
          db_password db_name migrations_path = Except.ok ()) ∧
      ∀ e, checker_init pathExists db_url db_type db_host db_port db_user
            db_password db_name migrations_path = Except.error e →
        truthy db_url = false ∧
          validate_db_inputs pathExists db_type db_host db_port db_user
              db_password db_name migrations_path = some e := by
  constructor
  · intro hurl
    unfold checker_init
    rw [hurl]
    rfl
  · intro e he
    unfold checker_init at he
    by_cases hurl : truthy db_url = true
    · rw [hurl] at he
      cases he
    · have hurl2 : truthy db_url = false := by
        simpa using hurl
      rw [hurl2] at he
      simp only [Bool.false_eq_true, if_false] at he
      refine ⟨hurl2, ?_⟩
      cases hv : validate_db_inputs pathExists db_type db_host db_port
          db_user db_password db_name migrations_path with
      | none => rw [hv] at he; cases he
      | some m => rw [hv] at he; cases he; rfl

/-- Witness for C10: a checker given only a db_url, with every other field
absent and a migrations path that does not exist, is accepted. -/
theorem init_skips_validation_with_db_url_witness :
    checker_init (fun _ => false) (some "sqlite:///db.sqlite") none none
        none none none none "/does/not/exist" = Except.ok () :=
  (init_skips_validation_with_db_url (fun _ => false)
      (some "sqlite:///db.sqlite") none none none none none none
      "/does/not/exist").1 (by rfl)

/-! ## Structure of linear chains (for C1) -/

/-- A chain has one revision per identifier. -/
theorem chainRevs_length (prev : Option String) (ids : List String) :
    (chainRevs prev ids).length = ids.length := by
  induction ids generalizing prev with
  | nil => rfl
  | cons a rest ih => simp [chainRevs, ih]

/-- Looking the first identifier of a chain up yields its revision, whose
predecessor list is the chain's entry edge. -/
theorem findRev_chainRevs_head (prev : Option String) (a : String)
    (rest : List String) :
    findRev (chainRevs prev (a :: rest)) a =
      some (Revision.mk a prev.toList) := by
  unfold chainRevs findRev
  rw [List.find?_cons_of_pos _ (by simp)]

/-- Looking a later identifier of a duplicate-free chain up yields its
revision, pointing back at the previous identifier. -/
theorem findRev_chainRevs_succ (prev : Option String) (ids : List String)
    (hnd : ids.Nodup) (j : Nat) (hj : j + 1 < ids.length) :
    findRev (chainRevs prev ids) (ids[j + 1]) =
      some (Revision.mk (ids[j + 1]) [ids[j]]) := by
  induction ids generalizing prev j with
  | nil => simp at hj
  | cons a rest ih =>
    have hj2 : j < rest.length := by
      simp only [List.length_cons] at hj
      omega
    have hmem : a ∉ rest := (List.nodup_cons.mp hnd).1
    have hner : rest.Nodup := (List.nodup_cons.mp hnd).2
    have hskip : ∀ x, x ∈ rest →
        findRev (chainRevs prev (a :: rest)) x =
          findRev (chainRevs (some a) rest) x := by
      intro x hx
      have hpa : ((Revision.mk a prev.toList).revision == x) = false := by
        rw [beq_eq_false_iff_ne]
        intro hq
        rw [← hq] at hx
        exact hmem hx
      show List.find? _ (Revision.mk a prev.toList :: chainRevs (some a) rest)
          = _
      rw [List.find?_cons_of_neg _ (by simp [hpa])]
      rfl
    cases j with
    | zero =>
      cases rest with
      | nil => simp at hj2
      | cons b rest2 =>
        have h1 : (a :: b :: rest2)[0 + 1] = b := rfl
        have h0 : (a :: b :: rest2)[0] = a := rfl
        rw [h1, h0, hskip b (by simp), findRev_chainRevs_head (some a) b rest2]
        rfl
    | succ k =>
      have hk : (a :: rest)[k + 1 + 1] = rest[k + 1] :=
        List.getElem_cons_succ a rest (k + 1) hj
      have hk0 : (a :: rest)[k + 1] = rest[k] :=
        List.getElem_cons_succ a rest k (by omega)
      rw [hk, hk0, hskip (rest[k + 1]) (List.getElem_mem hj2),
        ih (some a) hner k hj2]

/-- Every identifier of a duplicate-free chain resolves to a revision. -/
theorem findRev_mkChain_isSome (ids : List String) (hnd : ids.Nodup)
    (i : Nat) (hi : i < ids.length) :
    (findRev (mkChain ids) (ids[i])).isSome = true := by
  cases i with
  | zero =>
    cases ids with
    | nil => simp at hi
    | cons a rest =>
      have h0 : (a :: rest)[0] = a := rfl
      unfold mkChain
      rw [h0, findRev_chainRevs_head none a rest]
      rfl
  | succ k =>
    unfold mkChain
    rw [findRev_chainRevs_succ none ids hnd k hi]
    rfl

/-- Walking back `d` steps along a duplicate-free chain succeeds and
returns exactly `d` revisions, given enough fuel. -/
theorem walkBack_mkChain (ids : List String) (hnd : ids.Nodup) (i : Nat) :
    ∀ (d fuel : Nat) (hle : i + d < ids.length) (hfuel : d < fuel),
      ∃ path : List String,
        walkBack (mkChain ids) (ids[i]) fuel (ids[i + d]) = some path ∧
          path.length = d := by
  intro d
  induction d with
  | zero =>
    intro fuel hle hfuel
    cases fuel with
    | zero => omega
    | succ f =>
      refine ⟨[], ?_, rfl⟩
      simp only [Nat.add_zero]
      rw [walkBack]
      simp
  | succ d ih =>
    intro fuel hle hfuel
    cases fuel with
    | zero => omega
    | succ f =>
      have hle2 : i + d + 1 < ids.length := by omega
      obtain ⟨sub, hsub, hlen⟩ := ih f (by omega) (by omega)
      refine ⟨sub ++ [ids[i + d + 1]], ?_, by simp [hlen]⟩
      have hidx : ids[i + (d + 1)] = ids[i + d + 1] := rfl
      rw [hidx, walkBack]
      have hne2 : (ids[i + d + 1] == ids[i]) = false := by
        rw [beq_eq_false_iff_ne]
        intro hq
        have := (List.Nodup.getElem_inj_iff hnd).mp hq
        omega
      rw [hne2]
      simp only [Bool.false_eq_true, if_false]
      unfold mkChain
      rw [findRev_chainRevs_succ none ids hnd (i + d) hle2]
      unfold mkChain at hsub
      simp only [List.findSome?_cons, hsub]
      rfl

/-- On a duplicate-free chain, the traversal from the revision at position
`i` up to the one `d` steps later succeeds with a path of length `d`. -/
theorem traverseBetween_mkChain (ids : List String) (hnd : ids.Nodup)
    (i d : Nat) (hle : i + d < ids.length) :
    ∃ path, traverseBetween (mkChain ids) (ids[i]) (ids[i + d]) =
        Except.ok path ∧ path.length = d := by
  have hfrom := findRev_mkChain_isSome ids hnd i (by omega)
  obtain ⟨path, hw, hlen⟩ := walkBack_mkChain ids hnd i d
    ((mkChain ids).length + 1) hle
    (by rw [show (mkChain ids).length = ids.length from
        chainRevs_length none ids]; omega)
  refine ⟨path, ?_, hlen⟩
  unfold traverseBetween
  rw [if_pos hfrom, hw]

/-- The identifiers of a chain are exactly the identifiers it was built
from. -/
theorem chainRevs_map_revision (prev : Option String) (ids : List String) :
    (chainRevs prev ids).map (fun r => r.revision) = ids := by
  induction ids generalizing prev with
  | nil => rfl
  | cons a rest ih => simp [chainRevs, ih]

/-- An identifier is referenced as a predecessor inside a chain exactly
when it is the chain's entry edge or any identifier but the last. -/
theorem isReferenced_chainRevs (prev : Option String) (ids : List String)
    (x : String) :
    isReferenced (chainRevs prev ids) x = true ↔
      (ids ≠ [] ∧ (x ∈ prev.toList ∨ x ∈ ids.dropLast)) := by
  induction ids generalizing prev with
  | nil => simp [chainRevs, isReferenced]
  | cons a rest ih =>
    cases rest with
    | nil => simp [chainRevs, isReferenced]
    | cons b rest2 =>
      have hrec := ih (some a)
      simp only [chainRevs, isReferenced, List.any_cons, Bool.or_eq_true] at hrec ⊢
      rw [hrec]
      simp [List.dropLast_cons₂, List.mem_cons, or_assoc]

/-- The only terminal revision of a nonempty duplicate-free chain is its
last identifier. -/
theorem terminals_mkChain (ids : List String) (hnd : ids.Nodup)
    (hne : ids ≠ []) :
    terminals (mkChain ids) = [ids.getLast hne] := by
  unfold terminals mkChain
  rw [show (List.filter
        (fun r => !isReferenced (chainRevs none ids) r.revision)
        (chainRevs none ids)).map (fun r => r.revision) =
      List.filter (fun x => !isReferenced (chainRevs none ids) x)
        ((chainRevs none ids).map (fun r => r.revision)) from by
    rw [List.filter_map]
    rfl]
  rw [chainRevs_map_revision none ids]
  have hlastnm : ids.getLast hne ∉ ids.dropLast := by
    intro hmem
    have h2 := hnd
    rw [← List.dropLast_append_getLast hne, List.nodup_append] at h2
    exact h2.2.2 hmem (by simp)
  have href : ∀ x ∈ ids.dropLast,
      ¬((fun x => !isReferenced (chainRevs none ids) x) x = true) := by
    intro x hx
    have hr : isReferenced (chainRevs none ids) x = true :=
      (isReferenced_chainRevs none ids x).mpr ⟨hne, Or.inr (by simpa using hx)⟩
    simp [hr]
  have hlastp : (fun x => !isReferenced (chainRevs none ids) x)
      (ids.getLast hne) = true := by
    have hr : ¬(isReferenced (chainRevs none ids) (ids.getLast hne) = true) := by
      rw [isReferenced_chainRevs]
      rintro ⟨-, h4 | h4⟩
      · simp at h4
      · exact hlastnm h4
    simpa using hr
  generalize hgen : (fun x => !isReferenced (chainRevs none ids) x) = p
  rw [hgen] at href hlastp
  conv_lhs => rw [show ids = ids.dropLast ++ [ids.getLast hne] from
    (List.dropLast_append_getLast hne).symm]
  rw [List.filter_append, List.filter_eq_nil_iff.mpr href,
    List.filter_cons_of_pos hlastp]
  rfl

/-- Head resolution on a nonempty duplicate-free chain finds its last
identifier. -/
theorem resolveHead_mkChain (ids : List String) (hnd : ids.Nodup)
    (hne : ids ≠ []) :
    resolveHead (mkChain ids) = some (ids.getLast hne) := by
  unfold resolveHead
  rw [terminals_mkChain ids hnd hne]

/-- C1: on every duplicate-free linear chain with the database at position
`i` short of the head, the classification is `PendingCount` of the number
of revisions after position `i` - the count inclusive of head and exclusive
of the current revision - and `find_pending_migrations` reports exactly
that count. -/
theorem chain_classification_pending (ids : List String) (hnd : ids.Nodup)
    (i : Nat) (hi : i + 1 < ids.length) :
    evaluate_migration_alignment (mkChain ids) (some (ids[i])) =
        Outcome.pendingCount (ids.length - 1 - i) ∧
      find_pending_migrations (mkChain ids)
          (ids.getLast (by intro h; rw [h] at hi; simp at hi)) (ids[i]) =
        (true, ids.length - 1 - i) := by
  have hne0 : ids ≠ [] := by intro h; rw [h] at hi; simp at hi
  obtain ⟨path, hok, hlen⟩ := traverseBetween_mkChain ids hnd i
    (ids.length - 1 - i) (by omega)
  simp only [show i + (ids.length - 1 - i) = ids.length - 1 from by omega]
    at hok
  have hfp : find_pending_migrations (mkChain ids) (ids[ids.length - 1])
      (ids[i]) = (true, ids.length - 1 - i) := by
    unfold find_pending_migrations
    rw [hok]
    simp [hlen]
  have hhead : resolveHead (mkChain ids) = some (ids[ids.length - 1]) := by
    rw [resolveHead_mkChain ids hnd hne0, List.getLast_eq_getElem]
  have hbe : (ids[ids.length - 1] == ids[i]) = false := by
    rw [beq_eq_false_iff_ne]
    intro hq
    have := (List.Nodup.getElem_inj_iff hnd).mp hq
    omega
  constructor
  · unfold evaluate_migration_alignment evaluateWith
    rw [hhead]
    simp [hbe, hfp]
  · simp only [List.getLast_eq_getElem]
    exact hfp

/-- Witness for C1 at scenario A: the chain base -> A -> B -> C with the
database at A yields `PendingCount 2`, and `find_pending_migrations(C, A)`
reports `(True, 2)`. -/
theorem chain_classification_pending_witness :
    evaluate_migration_alignment (mkChain ["base", "A", "B", "C"])
        (some "A") = Outcome.pendingCount 2 ∧
      find_pending_migrations (mkChain ["base", "A", "B", "C"]) "C" "A" =
        (true, 2) := by
  have h := chain_classification_pending ["base", "A", "B", "C"]
    (by decide) 1 (by decide)
  simpa using h

end AlembicChecker
